import Mathlib

/-!
Verification of the shipyard entity-component store.

The development shallowly embeds the sources:
  * `src/entity/mod.rs` — the generational `Key` (handle) bit layout and the
    `Entities` allocator;
  * `src/get.rs` — the `Get` access layer (`get` / `fast_get`, single views
    and tuples);
  * `src/type_id/mod.rs` — the 32-bit `TypeId` surrogate.

Machine words are modelled as `Nat` with an explicit word width `w` (64 on
64-bit targets); overflow is made explicit through `% 2 ^ w` style reasoning.
Parts of the crate that are only declared or called from the files above
(`entity/view.rs`, `sparse_set.rs`, `mut.rs`, `type_id/hasher.rs`) are
modelled from the specification; each such definition says so in its doc
comment.
-/

namespace Shipyard

/-! ## Key: the generational handle (`src/entity/mod.rs`) -/

/-- `!0` on a `w`-bit word: all bits set. -/
def wordMask (w : Nat) : Nat := 2 ^ w - 1

/-- `Key::VERSION_LEN`: 16 bits of version on a 64-bit word, 12 otherwise
(`cfg(target_pointer_width = "64")`). -/
def versionLen (w : Nat) : Nat := if w = 64 then 16 else 12

/-- `Key::INDEX_MASK = !0 >> VERSION_LEN`. -/
def indexMask (w : Nat) : Nat := wordMask w >>> versionLen w

/-- `Key::VERSION_MASK = !INDEX_MASK`: bitwise complement inside a `w`-bit
word, i.e. subtraction from the all-ones word. -/
def versionMask (w : Nat) : Nat := wordMask w - indexMask w

/-- A `Key` is a `usize` packing index (low bits) and version (high bits). -/
abbrev Key := Nat

namespace Key

/-- `Key::index`: `self.0 & Self::INDEX_MASK`. -/
def index (w k : Nat) : Nat := k &&& indexMask w

/-- `Key::version`: `(self.0 & VERSION_MASK) >> (word_bits - VERSION_LEN)`. -/
def version (w k : Nat) : Nat := (k &&& versionMask w) >>> (w - versionLen w)

/-- `Key::new(index)`: builds a key with version 0; the source asserts
`index <= INDEX_MASK`, carried here as a hypothesis on the theorems. -/
def new (i : Nat) : Key := i

/-- `Key::set_index`: `self.0 = (self.0 & VERSION_MASK) | index`. -/
def set_index (w k i : Nat) : Key := (k &&& versionMask w) ||| i

/-- `Key::bump_version`: succeeds iff `self.0 < !(!0 >> (VERSION_LEN - 1))`,
and then rebuilds the word from the old index and the incremented version. -/
def bump_version (w k : Nat) : Except Unit Key :=
  if k < wordMask w - (wordMask w >>> (versionLen w - 1)) then
    .ok (index w k ||| ((version w k + 1) <<< (w - versionLen w)))
  else
    .error ()

/-- The reserved maximal version (`version::MAX()`), the dead-entity flag. -/
def versionMax (w : Nat) : Nat := 2 ^ versionLen w - 1

end Key

/-- Packing: a word holding `g` in the high bits and `i` in the low bits. -/
def packKey (w g i : Nat) : Key := (g <<< (w - versionLen w)) ||| i

/-- `bump_version` iterated `n` times (used to raise a fresh key to a target
generation). -/
def bumpIter (w : Nat) : Nat → Key → Except Unit Key
  | 0, k => .ok k
  | n + 1, k =>
    match Key.bump_version w k with
    | .ok k' => bumpIter w n k'
    | .error e => .error e

/-- `Entities` (`src/entity/mod.rs`): the slot table (`data: Vec<Key>`) and
the free-list head/tail cursors (`list: Option<(usize, usize)>`). -/
structure Entities where
  data : List Key
  list : Option (Nat × Nat)

/-- `Entities::default()`: empty table, empty free list. -/
def Entities.default : Entities := { data := [], list := none }

/-- Modelled from the spec: `EntityViewMut::generate` (`src/entity/view.rs`
is not among the sources; only its declaration and tests are). It "pops the
free-list head if non-empty … returns it; otherwise appends a brand-new slot
at generation 0". Removed slots store the next free index inside their own
`index` field, so popping reads the successor there, restores the slot's
`index` to its own position, and advances the head cursor — the list
emptying when the head meets the tail. -/
def Entities.generate (w : Nat) (e : Entities) : Key × Entities :=
  match e.list with
  | some (head, tail) =>
    let stored := e.data.getD head 0
    let next := Key.index w stored
    let key := Key.set_index w stored head
    let data' := e.data.set head key
    let list' := if head = tail then none else some (next, tail)
    (key, { data := data', list := list' })
  | none =>
    let key := Key.new e.data.length
    (key, { data := e.data ++ [key], list := none })

/-- Modelled from the spec: `EntityViewMut::delete_key` (`src/entity/view.rs`
is not among the sources). "Returns `true` iff `handle` was live (matched the
stored generation at its index). If live: attempts to bump that slot's
generation; if the bump would overflow … the slot becomes permanently Dead
and is excluded from the free list …; otherwise it is relinked to the tail of
the free list": threading the new tail through the previous tail's `index`
field. -/
def Entities.delete_key (w : Nat) (e : Entities) (k : Key) : Bool × Entities :=
  if Key.index w k < e.data.length ∧
      Key.version w (e.data.getD (Key.index w k) 0) = Key.version w k then
    match Key.bump_version w (e.data.getD (Key.index w k) 0) with
    | .ok k' =>
      match e.list with
      | none =>
        (true, { data := e.data.set (Key.index w k) k',
                 list := some (Key.index w k, Key.index w k) })
      | some (head, tail) =>
        (true, { data := (e.data.set (Key.index w k) k').set tail
                   (Key.set_index w ((e.data.set (Key.index w k) k').getD tail 0)
                     (Key.index w k)),
                 list := some (head, Key.index w k) })
    | .error _ => (true, e)
  else
    (false, e)

/-- The worked free-list example of the spec and of the repository's test
`test::entities`: the successive allocator results. First `generate`. -/
def fifoR1 : Key × Entities := Entities.generate 64 Entities.default

/-- Second `generate`. -/
def fifoR2 : Key × Entities := Entities.generate 64 fifoR1.2

/-- Delete the first handle (index 0, generation 0). -/
def fifoD1 : Bool × Entities := Entities.delete_key 64 fifoR2.2 fifoR1.1

/-- Third `generate`: reuses index 0 at generation 1. -/
def fifoR3 : Key × Entities := Entities.generate 64 fifoD1.2

/-- Delete the handle at index 1 (generation 0). -/
def fifoD2 : Bool × Entities := Entities.delete_key 64 fifoR3.2 fifoR2.1

/-- Delete the handle at index 0 (now generation 1). -/
def fifoD3 : Bool × Entities := Entities.delete_key 64 fifoD2.2 fifoR3.1

/-- Fourth `generate`: index 1, generation 1 (freed first, reused first). -/
def fifoR4 : Key × Entities := Entities.generate 64 fifoD3.2

/-- Fifth `generate`: index 0, generation 2. -/
def fifoR5 : Key × Entities := Entities.generate 64 fifoR4.2

/-! ## The access layer (`src/get.rs`) -/

/-- `EntityId` (`src/entity_id.rs` is not among the sources): the handle as
seen by the access layer — an index into the sparse array plus a generation,
compared for equality as a whole. -/
structure EntityId where
  index : Nat
  gen : Nat
deriving DecidableEq

/-- Modelled from the spec: a dense-array entry of a sparse set — the owning
handle together with the per-slot change-tracking flags ("metadata recording
per-slot modification flags (e.g., 'inserted this tracking epoch')");
`src/sparse_set.rs` is not among the sources. -/
structure DenseEntry where
  id : EntityId
  inserted : Bool
  modified : Bool
deriving DecidableEq

instance : Inhabited DenseEntry := ⟨⟨⟨0, 0⟩, false, false⟩⟩

/-- `EntityId::is_inserted` as used by `get.rs`: the "inserted this epoch"
flag of a dense entry. -/
def DenseEntry.is_inserted (d : DenseEntry) : Bool := d.inserted

/-- Modelled from the spec: per-type sparse-set storage — sparse positions,
dense handles, data values, and the tracking metadata; `name` stands for
`type_name::<T>()`. -/
structure SparseSet (α : Type) where
  sparse : List (Option Nat)
  dense : List DenseEntry
  data : List α
  track_modification : Bool
  name : String

/-- `SparseSet::is_tracking_modification` as used by `get.rs`. -/
def SparseSet.is_tracking_modification {α : Type} (s : SparseSet α) : Bool :=
  s.track_modification

/-- Modelled from the spec: `SparseSet::index_of` — the dense position of an
entity; "sparse[handle.index] is valid iff dense[sparse[handle.index]] ==
handle". -/
def SparseSet.index_of {α : Type} (s : SparseSet α) (e : EntityId) : Option Nat :=
  match s.sparse.getD e.index none with
  | none => none
  | some p =>
    if p < s.dense.length ∧ (s.dense.getD p default).id = e then some p else none

/-- Modelled from the spec: `SparseSet::private_get` — "O(1) via
sparse[handle.index] indirection; returns nothing if the handle is absent". -/
def SparseSet.private_get {α : Type} [Inhabited α] (s : SparseSet α) (e : EntityId) :
    Option α :=
  (s.index_of e).map (fun p => s.data.getD p default)

/-- Modelled from the spec: `SparseSet::private_get_mut` — the mutable
variant of the same lookup, backing `fast_get`'s raw reference. -/
def SparseSet.private_get_mut {α : Type} [Inhabited α] (s : SparseSet α) (e : EntityId) :
    Option α :=
  (s.index_of e).map (fun p => s.data.getD p default)

/-- `error::MissingComponent` (`src/error.rs` is not among the sources):
carries the queried entity id and the component type name. -/
structure MissingComponent where
  id : EntityId
  name : String
deriving DecidableEq

/-- `Mut` (`src/mut.rs` is not among the sources): the tracked wrapper
returned by `get` on an exclusive view — an optional "not yet flagged"
marker (modelled as the dense position it would flag) plus the component
value. -/
structure Mut (α : Type) where
  flag : Option Nat
  data : α
deriving DecidableEq

/-- Views deref to their sparse set; `View` is the shared-access wrapper. -/
abbrev View (α : Type) := SparseSet α

/-- `ViewMut` is the exclusive-access wrapper. -/
abbrev ViewMut (α : Type) := SparseSet α

/-- `Get for &View<T>`, `get` (`src/get.rs` lines 48–60):
`private_get(entity).ok_or_else(MissingComponent { id, name })`. -/
def View.get {α : Type} [Inhabited α] (v : View α) (e : EntityId) :
    Except MissingComponent α :=
  match v.private_get e with
  | some x => .ok x
  | none => .error { id := e, name := v.name }

/-- `Get for &View<T>`, `fast_get` (lines 61–69): same body as `get`. -/
def View.fast_get {α : Type} [Inhabited α] (v : View α) (e : EntityId) :
    Except MissingComponent α :=
  match v.private_get e with
  | some x => .ok x
  | none => .error { id := e, name := v.name }

/-- `Get for &ViewMut<T>`, `get` (lines 72–84): shared borrow of an
exclusive view, same body as for `View`. -/
def ViewMut.get_ref {α : Type} [Inhabited α] (v : ViewMut α) (e : EntityId) :
    Except MissingComponent α :=
  match v.private_get e with
  | some x => .ok x
  | none => .error { id := e, name := v.name }

/-- `Get for &ViewMut<T>`, `fast_get` (lines 85–93). -/
def ViewMut.fast_get_ref {α : Type} [Inhabited α] (v : ViewMut α) (e : EntityId) :
    Except MissingComponent α :=
  match v.private_get e with
  | some x => .ok x
  | none => .error { id := e, name := v.name }

/-- `Get for &mut ViewMut<T>`, `get` (lines 101–133): resolve `index_of`,
fail with `MissingComponent` if absent; when tracking modification, the
wrapper carries the flag marker iff the dense entry is not `is_inserted`;
otherwise the flag is always `None`. -/
def ViewMut.get_mut {α : Type} [Inhabited α] (s : ViewMut α) (e : EntityId) :
    Except MissingComponent (Mut α) :=
  match s.index_of e with
  | none => .error { id := e, name := s.name }
  | some index =>
    if s.is_tracking_modification then
      .ok { flag := if ¬ (s.dense.getD index default).is_inserted then some index else none,
            data := s.data.getD index default }
    else
      .ok { flag := none, data := s.data.getD index default }

/-- `Get for &mut ViewMut<T>`, `fast_get` (lines 134–141):
`private_get_mut(entity).ok_or_else(MissingComponent { id, name })`. -/
def ViewMut.fast_get_mut {α : Type} [Inhabited α] (s : ViewMut α) (e : EntityId) :
    Except MissingComponent α :=
  match s.private_get_mut e with
  | some x => .ok x
  | none => .error { id := e, name := s.name }

/-- Modelled from the spec: dereferencing the tracked `Mut` wrapper mutably
"flips its 'modified' bit exactly once" through the stored marker
(`src/mut.rs` is not among the sources): a present flag marks that dense
entry modified. -/
def applyMutFlag {α : Type} (s : ViewMut α) (flag : Option Nat) : ViewMut α :=
  match flag with
  | none => s
  | some p =>
    { s with dense := s.dense.set p { s.dense.getD p default with modified := true } }

/-- One tracked mutable access: obtain the wrapper through `get`, then write
through it (only the flag effect matters to change tracking). -/
def trackedAccess {α : Type} [Inhabited α] (s : ViewMut α) (e : EntityId) : ViewMut α :=
  match s.get_mut e with
  | .error _ => s
  | .ok m => applyMutFlag s m.flag

/-- Modelled from the spec: writing through `fast_get`'s raw reference only
touches the data array — it "bypasses change-tracking bookkeeping". -/
def fastWrite {α : Type} [Inhabited α] (s : ViewMut α) (e : EntityId) (v : α) :
    ViewMut α :=
  match s.index_of e with
  | none => s
  | some p => { s with data := s.data.set p v }

/-- `impl_get_component` (`src/get.rs` lines 144–171), `get` arm: an n-ary
tuple's `get` is `Ok((self.0.get(entity)?, self.1.get(entity)?, …))` —
element getters tried left to right, stopping at the first `Err`. The
element getters are collected in a list (outputs type-erased to a single
type) so one definition covers every arity, 1 through 10 and beyond. -/
def tupleGet {β : Type} (fs : List (EntityId → Except MissingComponent β))
    (e : EntityId) : Except MissingComponent (List β) :=
  match fs with
  | [] => .ok []
  | f :: rest =>
    match f e with
    | .error err => .error err
    | .ok x =>
      match tupleGet rest e with
      | .error err => .error err
      | .ok xs => .ok (x :: xs)

/-- `impl_get_component`, `fast_get` arm: identical shape over the elements'
`fast_get`. -/
def tupleFastGet {β : Type} (fs : List (EntityId → Except MissingComponent β))
    (e : EntityId) : Except MissingComponent (List β) :=
  match fs with
  | [] => .ok []
  | f :: rest =>
    match f e with
    | .error err => .error err
    | .ok x =>
      match tupleFastGet rest e with
      | .error err => .error err
      | .ok xs => .ok (x :: xs)

/-! ## The type identifier (`src/type_id/mod.rs`) -/

/-- Modelled from the spec: `TypeIdHasher::finish` (`src/type_id/hasher.rs`
is not among the sources) — the "stable hash … deterministically derived
from a type's native identity" passes the native identifier through; types
are represented by their native identifiers (which distinct types never
share). -/
def typeIdHasherFinish (nativeId : Nat) : Nat := nativeId

/-- `From<core::any::TypeId> for TypeId` (`src/type_id/mod.rs`):
`TypeId(hasher.finish() as u32)` — the hash truncated to 32 bits. -/
def TypeId.of (nativeId : Nat) : Nat := typeIdHasherFinish nativeId % 2 ^ 32

/-- The derived `Ord` on `TypeId`: comparison of the underlying `u32`. -/
def TypeId.cmp (a b : Nat) : Ordering := compare a b

/-- The derived `Hash` on `TypeId`: a function of the underlying `u32` alone
(the newtype hashes its single field). -/
def TypeId.hashOf (a : Nat) : Nat := a

/-! ## Theorems -/

/-! ### Arithmetic characterisation of the bit operations -/

theorem versionLen_le {w : Nat} (hw : 16 ≤ w) : versionLen w ≤ w := by
  unfold versionLen; split <;> omega

/-- Shifting the all-ones word right by `t` leaves the low `w - t` bits. -/
theorem wordMask_shiftRight {w t : Nat} (ht : t ≤ w) :
    wordMask w >>> t = 2 ^ (w - t) - 1 := by
  have h2 : 2 ^ w = 2 ^ (w - t) * 2 ^ t := by
    rw [← pow_add]; congr 1; omega
  have hpos : 0 < 2 ^ t := Nat.pos_pow_of_pos _ (by omega)
  have hpos2 : 0 < 2 ^ (w - t) := Nat.pos_pow_of_pos _ (by omega)
  unfold wordMask
  rw [Nat.shiftRight_eq_div_pow, h2]
  obtain ⟨a, ha⟩ : ∃ a, 2 ^ (w - t) = a + 1 :=
    ⟨2 ^ (w - t) - 1, by omega⟩
  obtain ⟨b, hb⟩ : ∃ b, 2 ^ t = b + 1 :=
    ⟨2 ^ t - 1, by omega⟩
  rw [ha, hb]
  have hnum : (a + 1) * (b + 1) - 1 = b + a * (b + 1) := by
    have hexp : (a + 1) * (b + 1) = (b + a * (b + 1)) + 1 := by ring
    omega
  rw [hnum, Nat.add_mul_div_right _ _ (by omega), Nat.div_eq_of_lt (by omega)]
  omega

theorem indexMask_eq {w : Nat} (hw : 16 ≤ w) :
    indexMask w = 2 ^ (w - versionLen w) - 1 :=
  wordMask_shiftRight (versionLen_le hw)

theorem versionMask_eq {w : Nat} (hw : 16 ≤ w) :
    versionMask w = 2 ^ w - 2 ^ (w - versionLen w) := by
  have hv := versionLen_le hw
  have hle : 2 ^ (w - versionLen w) ≤ 2 ^ w := Nat.pow_le_pow_right (by omega) (by omega)
  unfold versionMask wordMask
  rw [indexMask_eq hw]
  have hpos : 0 < 2 ^ (w - versionLen w) := Nat.pos_pow_of_pos _ (by omega)
  omega

theorem index_eq_mod {w : Nat} (hw : 16 ≤ w) (k : Nat) :
    Key.index w k = k % 2 ^ (w - versionLen w) := by
  unfold Key.index
  rw [indexMask_eq hw, Nat.and_pow_two_sub_one_eq_mod]

/-- Masking with `VERSION_MASK` keeps exactly the high part of a word. -/
theorem and_versionMask_eq {w : Nat} (hw : 16 ≤ w) {k : Nat} (hk : k < 2 ^ w) :
    k &&& versionMask w = 2 ^ (w - versionLen w) * (k / 2 ^ (w - versionLen w)) := by
  set s := w - versionLen w with hs
  have hsw : s ≤ w := by omega
  apply Nat.eq_of_testBit_eq
  intro i
  rw [Nat.testBit_and, versionMask_eq hw]
  have hmask : 2 ^ w - 2 ^ s = (2 ^ (w - s) - 1) <<< s := by
    rw [Nat.shiftLeft_eq, Nat.sub_mul, one_mul, ← pow_add]
    congr 2
    omega
  have hrhs : 2 ^ s * (k / 2 ^ s) = (k >>> s) <<< s := by
    rw [Nat.shiftRight_eq_div_pow, Nat.shiftLeft_eq]
    ring
  rw [hmask, hrhs, Nat.testBit_shiftLeft, Nat.testBit_shiftLeft, Nat.testBit_shiftRight,
    Nat.testBit_two_pow_sub_one]
  by_cases hsi : s ≤ i
  · have hiseq : s + (i - s) = i := by omega
    by_cases hiw : i < w
    · simp [ge_iff_le, hsi, hiseq, show i - s < w - s by omega]
    · have hkb : k.testBit i = false := Nat.testBit_lt_two_pow
        (lt_of_lt_of_le hk (Nat.pow_le_pow_right (by omega) (by omega)))
      simp [ge_iff_le, hsi, hiseq, hkb]
  · simp [ge_iff_le, hsi]

theorem version_eq_div {w : Nat} (hw : 16 ≤ w) {k : Nat} (hk : k < 2 ^ w) :
    Key.version w k = k / 2 ^ (w - versionLen w) := by
  unfold Key.version
  rw [and_versionMask_eq hw hk, Nat.shiftRight_eq_div_pow,
    Nat.mul_div_cancel_left _ (Nat.pos_pow_of_pos _ (by omega))]

theorem packKey_eq_add {w : Nat} (hw : 16 ≤ w) {g i : Nat}
    (hi : i ≤ indexMask w) :
    packKey w g i = g * 2 ^ (w - versionLen w) + i := by
  have hib : i < 2 ^ (w - versionLen w) := by
    rw [indexMask_eq hw] at hi
    have : 0 < 2 ^ (w - versionLen w) := Nat.pos_pow_of_pos _ (by omega)
    omega
  unfold packKey
  rw [Nat.shiftLeft_eq, Nat.mul_comm g, ← Nat.mul_add_lt_is_or hib g]

/-- A word split as `g * 2 ^ s + i` stays below `2 ^ w` when both parts fit. -/
theorem mul_add_lt_word {w g i : Nat} (hw : 16 ≤ w) (hg : g < 2 ^ versionLen w)
    (hi : i < 2 ^ (w - versionLen w)) : g * 2 ^ (w - versionLen w) + i < 2 ^ w := by
  have hv := versionLen_le hw
  have h2 : 2 ^ w = 2 ^ versionLen w * 2 ^ (w - versionLen w) := by
    rw [← pow_add]; congr 1; omega
  have hmul : g * 2 ^ (w - versionLen w) ≤ (2 ^ versionLen w - 1) * 2 ^ (w - versionLen w) :=
    Nat.mul_le_mul_right _ (by omega)
  have hsub : (2 ^ versionLen w - 1) * 2 ^ (w - versionLen w)
      = 2 ^ versionLen w * 2 ^ (w - versionLen w) - 2 ^ (w - versionLen w) := by
    rw [Nat.sub_mul, one_mul]
  have hle : 2 ^ (w - versionLen w) ≤ 2 ^ versionLen w * 2 ^ (w - versionLen w) :=
    Nat.le_mul_of_pos_left _ (by omega)
  omega

theorem index_mul_add {w g i : Nat} (hw : 16 ≤ w) (hi : i < 2 ^ (w - versionLen w)) :
    Key.index w (g * 2 ^ (w - versionLen w) + i) = i := by
  rw [index_eq_mod hw, Nat.mul_comm g, Nat.mul_add_mod, Nat.mod_eq_of_lt hi]

theorem version_mul_add {w g i : Nat} (hw : 16 ≤ w) (hg : g < 2 ^ versionLen w)
    (hi : i < 2 ^ (w - versionLen w)) :
    Key.version w (g * 2 ^ (w - versionLen w) + i) = g := by
  rw [version_eq_div hw (mul_add_lt_word hw hg hi), Nat.mul_comm g,
    Nat.mul_add_div (Nat.pos_pow_of_pos _ (by omega)), Nat.div_eq_of_lt hi]
  omega

theorem lt_iff_index_lt {w : Nat} (hw : 16 ≤ w) {i : Nat} :
    i ≤ indexMask w ↔ i < 2 ^ (w - versionLen w) := by
  rw [indexMask_eq hw]
  have : 0 < 2 ^ (w - versionLen w) := Nat.pos_pow_of_pos _ (by omega)
  omega

/-- The guard of `bump_version` holds exactly below version `MAX - 1`. -/
theorem bump_guard_iff {w k : Nat} (hw : 16 ≤ w) (hk : k < 2 ^ w) :
    k < wordMask w - (wordMask w >>> (versionLen w - 1)) ↔
      Key.version w k + 1 < Key.versionMax w := by
  have hv := versionLen_le hw
  have hvpos : 12 ≤ versionLen w := by unfold versionLen; split <;> omega
  have hsh : wordMask w >>> (versionLen w - 1) = 2 ^ (w - (versionLen w - 1)) - 1 :=
    wordMask_shiftRight (by omega)
  have hw1 : w - (versionLen w - 1) = (w - versionLen w) + 1 := by omega
  have h2 : 2 ^ ((w - versionLen w) + 1) = 2 * 2 ^ (w - versionLen w) := by
    rw [pow_succ]; ring
  have h2w : 2 ^ w = 2 ^ versionLen w * 2 ^ (w - versionLen w) := by
    rw [← pow_add]; congr 1; omega
  have hver : Key.version w k = k / 2 ^ (w - versionLen w) := version_eq_div hw hk
  have hspos : 0 < 2 ^ (w - versionLen w) := Nat.pos_pow_of_pos _ (by omega)
  have hvm : 2 ≤ 2 ^ versionLen w := by
    calc (2 : Nat) ≤ 2 ^ 12 := by norm_num
    _ ≤ 2 ^ versionLen w := Nat.pow_le_pow_right (by omega) (by omega)
  have hP2S : 2 * 2 ^ (w - versionLen w) ≤ 2 ^ versionLen w * 2 ^ (w - versionLen w) :=
    Nat.mul_le_mul_right _ hvm
  have hiff : k / 2 ^ (w - versionLen w) < 2 ^ versionLen w - 2 ↔
      k < (2 ^ versionLen w - 2) * 2 ^ (w - versionLen w) :=
    Nat.div_lt_iff_lt_mul hspos
  have hsub : (2 ^ versionLen w - 2) * 2 ^ (w - versionLen w)
      = 2 ^ versionLen w * 2 ^ (w - versionLen w) - 2 * 2 ^ (w - versionLen w) :=
    Nat.sub_mul _ _ _
  rw [hsh, hw1, h2, hver]
  unfold wordMask Key.versionMax
  omega

/-- The `Ok` branch of `bump_version` rebuilds `index | (version + 1) << s`,
which is the packed word of the old index and the next version. -/
theorem bump_version_ok_eq {w k : Nat} (hw : 16 ≤ w) (hk : k < 2 ^ w)
    (h : Key.version w k + 1 < Key.versionMax w) :
    Key.bump_version w k =
      .ok ((Key.version w k + 1) * 2 ^ (w - versionLen w) + Key.index w k) := by
  unfold Key.bump_version
  rw [if_pos ((bump_guard_iff hw hk).mpr h)]
  congr 1
  have hi : Key.index w k < 2 ^ (w - versionLen w) := by
    rw [index_eq_mod hw]
    exact Nat.mod_lt _ (Nat.pos_pow_of_pos _ (by omega))
  rw [Nat.shiftLeft_eq, Nat.lor_comm, Nat.mul_comm (Key.version w k + 1),
    ← Nat.mul_add_lt_is_or hi, Nat.mul_comm]

theorem bump_version_err {w k : Nat} (hw : 16 ≤ w) (hk : k < 2 ^ w)
    (h : ¬ Key.version w k + 1 < Key.versionMax w) :
    Key.bump_version w k = .error () := by
  unfold Key.bump_version
  rw [if_neg (fun hlt => h ((bump_guard_iff hw hk).mp hlt))]

theorem index_le_mask (w k : Nat) : Key.index w k ≤ indexMask w := Nat.and_le_right

theorem index_lt {w : Nat} (hw : 16 ≤ w) (k : Nat) :
    Key.index w k < 2 ^ (w - versionLen w) :=
  (lt_iff_index_lt hw).mp (index_le_mask w k)

theorem version_lt {w k : Nat} (hw : 16 ≤ w) (hk : k < 2 ^ w) :
    Key.version w k < 2 ^ versionLen w := by
  rw [version_eq_div hw hk]
  have h2 : 2 ^ w = 2 ^ (w - versionLen w) * 2 ^ versionLen w := by
    rw [← pow_add]; congr 1; have := versionLen_le hw; omega
  apply Nat.div_lt_of_lt_mul
  omega

theorem set_index_eq {w k i : Nat} (hw : 16 ≤ w) (hk : k < 2 ^ w)
    (hi : i < 2 ^ (w - versionLen w)) :
    Key.set_index w k i = Key.version w k * 2 ^ (w - versionLen w) + i := by
  unfold Key.set_index
  rw [and_versionMask_eq hw hk, ← Nat.mul_add_lt_is_or hi (k / 2 ^ (w - versionLen w)),
    version_eq_div hw hk, Nat.mul_comm]

theorem version_set_index {w k i : Nat} (hw : 16 ≤ w) (hk : k < 2 ^ w)
    (hi : i < 2 ^ (w - versionLen w)) :
    Key.version w (Key.set_index w k i) = Key.version w k := by
  rw [set_index_eq hw hk hi]
  exact version_mul_add hw (version_lt hw hk) hi

/-- Everything a successful `bump_version` guarantees about its result. -/
theorem bump_version_ok_inv {w k k' : Nat} (hw : 16 ≤ w) (hk : k < 2 ^ w)
    (hok : Key.bump_version w k = .ok k') :
    Key.version w k' = Key.version w k + 1 ∧ Key.index w k' = Key.index w k ∧
      k' < 2 ^ w := by
  by_cases hlt : Key.version w k + 1 < Key.versionMax w
  · rw [bump_version_ok_eq hw hk hlt] at hok
    cases hok
    have hi : Key.index w k < 2 ^ (w - versionLen w) := index_lt hw k
    have hv1 : Key.version w k + 1 < 2 ^ versionLen w := by
      unfold Key.versionMax at hlt
      have : 0 < 2 ^ versionLen w := Nat.pos_pow_of_pos _ (by omega)
      omega
    exact ⟨version_mul_add hw hv1 hi, index_mul_add hw hi, mul_add_lt_word hw hv1 hi⟩
  · rw [bump_version_err hw hk hlt] at hok
    exact Except.noConfusion hok

theorem bumpIter_pack {w i : Nat} (hw : 16 ≤ w) (hi : i < 2 ^ (w - versionLen w)) :
    ∀ g v : Nat, v + g < Key.versionMax w →
      bumpIter w g (v * 2 ^ (w - versionLen w) + i) =
        .ok ((v + g) * 2 ^ (w - versionLen w) + i) := by
  intro g
  induction g with
  | zero => intro v _; simp [bumpIter]
  | succ n ih =>
    intro v hv
    have hvlt : v < 2 ^ versionLen w := by
      unfold Key.versionMax at hv
      omega
    have hk : v * 2 ^ (w - versionLen w) + i < 2 ^ w := mul_add_lt_word hw hvlt hi
    have hver : Key.version w (v * 2 ^ (w - versionLen w) + i) = v :=
      version_mul_add hw hvlt hi
    have hidx : Key.index w (v * 2 ^ (w - versionLen w) + i) = i :=
      index_mul_add hw hi
    have hstep := bump_version_ok_eq hw hk (by rw [hver]; omega)
    rw [hver, hidx] at hstep
    have hgoal : bumpIter w (n + 1) (v * 2 ^ (w - versionLen w) + i)
        = bumpIter w n ((v + 1) * 2 ^ (w - versionLen w) + i) := by
      show (match Key.bump_version w (v * 2 ^ (w - versionLen w) + i) with
        | .ok k' => bumpIter w n k'
        | .error e => Except.error e) = _
      rw [hstep]
    have hih := ih (v + 1) (by omega)
    have heq : v + 1 + n = v + (n + 1) := by omega
    rw [heq] at hih
    rw [hgoal, hih]

/-! ## Claim theorems about the Key bit layout -/

/-- C1: Handle pack/unpack round-trip. For every index within the index bit
budget (`w - versionLen w` bits, i.e. 48 on a 64-bit word) and every
generation within the generation bit budget (`versionLen w` bits), the key
whose raw word holds the generation in the high bits and the index in the low
bits satisfies `index() = index` and `version() = generation`; and building a
key with `new(index)` and raising its version to `g` by repeated
`bump_version` (possible exactly for the generations a live slot can reach,
`g < version::MAX()`) returns exactly that packed key. -/
theorem claim_C1_handle_roundtrip (w i g : Nat) (hw : 16 ≤ w)
    (hi : i ≤ indexMask w) (hg : g < 2 ^ versionLen w) :
    Key.index w (packKey w g i) = i ∧
    Key.version w (packKey w g i) = g ∧
    (g < Key.versionMax w → bumpIter w g (Key.new i) = .ok (packKey w g i)) := by
  have hi' : i < 2 ^ (w - versionLen w) := (lt_iff_index_lt hw).mp hi
  have hpack := packKey_eq_add hw hi (g := g)
  refine ⟨?_, ?_, ?_⟩
  · rw [hpack]; exact index_mul_add hw hi'
  · rw [hpack]; exact version_mul_add hw hg hi'
  · intro hgmax
    have := bumpIter_pack hw hi' g 0 (by omega)
    rw [Nat.zero_mul, Nat.zero_add, Nat.zero_add] at this
    rw [Key.new, this, hpack]

theorem claim_C1_handle_roundtrip_witness :
    Key.index 64 (packKey 64 3 701) = 701 ∧
    Key.version 64 (packKey 64 3 701) = 3 ∧
    (3 < Key.versionMax 64 → bumpIter 64 3 (Key.new 701) = .ok (packKey 64 3 701)) :=
  claim_C1_handle_roundtrip 64 701 3 (by decide) (by decide) (by decide)

/-- C4: Generation saturation. `bump_version` returns `Err` exactly when the
incremented generation would reach the reserved maximum `version::MAX()`
(`2 ^ 16 - 1` on a 64-bit word, `2 ^ 12 - 1` otherwise); otherwise it returns
`Ok` and the version increases by exactly one, staying at most
`version::MAX() - 1`. -/
theorem claim_C4_generation_saturation (w k : Nat) (hw : 16 ≤ w) (hk : k < 2 ^ w) :
    (Key.bump_version w k = .error () ↔ Key.versionMax w ≤ Key.version w k + 1) ∧
    (∀ k', Key.bump_version w k = .ok k' →
      Key.version w k' = Key.version w k + 1 ∧
      Key.version w k' ≤ Key.versionMax w - 1) := by
  constructor
  · constructor
    · intro herr
      by_contra hlt
      rw [bump_version_ok_eq hw hk (by omega)] at herr
      exact Except.noConfusion herr
    · intro hge
      exact bump_version_err hw hk (by omega)
  · intro k' hok
    by_cases hlt : Key.version w k + 1 < Key.versionMax w
    · rw [bump_version_ok_eq hw hk hlt] at hok
      have hi : Key.index w k < 2 ^ (w - versionLen w) := by
        rw [index_eq_mod hw]
        exact Nat.mod_lt _ (Nat.pos_pow_of_pos _ (by omega))
      have hvlt : Key.version w k + 1 < 2 ^ versionLen w := by
        unfold Key.versionMax at hlt
        have : 0 < 2 ^ versionLen w := Nat.pos_pow_of_pos _ (by omega)
        omega

      have := version_mul_add hw hvlt hi
      cases hok
      rw [this]
      unfold Key.versionMax at hlt ⊢
      omega
    · rw [bump_version_err hw hk hlt] at hok
      exact Except.noConfusion hok

theorem claim_C4_generation_saturation_witness :
    (Key.bump_version 64 (packKey 64 3 701) = .error () ↔
      Key.versionMax 64 ≤ Key.version 64 (packKey 64 3 701) + 1) ∧
    (∀ k', Key.bump_version 64 (packKey 64 3 701) = .ok k' →
      Key.version 64 k' = Key.version 64 (packKey 64 3 701) + 1 ∧
      Key.version 64 k' ≤ Key.versionMax 64 - 1) :=
  claim_C4_generation_saturation 64 (packKey 64 3 701) (by decide) (by decide)

/-- C9: Key field updates are frame-local. `set_index` changes only the index
part and leaves `version()` unchanged; a successful `bump_version` leaves
`index()` unchanged (the version part is settled by C4). -/
theorem claim_C9_key_frame_local (w k i : Nat) (hw : 16 ≤ w) (hk : k < 2 ^ w)
    (hi : i ≤ indexMask w) :
    Key.index w (Key.set_index w k i) = i ∧
    Key.version w (Key.set_index w k i) = Key.version w k ∧
    (∀ k', Key.bump_version w k = .ok k' → Key.index w k' = Key.index w k) := by
  have hi' : i < 2 ^ (w - versionLen w) := (lt_iff_index_lt hw).mp hi
  have hvlt : Key.version w k < 2 ^ versionLen w := by
    rw [version_eq_div hw hk]
    have h2 : 2 ^ w = 2 ^ (w - versionLen w) * 2 ^ versionLen w := by
      rw [← pow_add]; congr 1; have := versionLen_le hw; omega
    apply Nat.div_lt_of_lt_mul
    omega
  have hset : Key.set_index w k i = Key.version w k * 2 ^ (w - versionLen w) + i := by
    unfold Key.set_index
    rw [and_versionMask_eq hw hk, ← Nat.mul_add_lt_is_or hi' (k / 2 ^ (w - versionLen w)),
      version_eq_div hw hk, Nat.mul_comm]
  refine ⟨?_, ?_, ?_⟩
  · rw [hset]; exact index_mul_add hw hi'
  · rw [hset]; exact version_mul_add hw hvlt hi'
  · intro k' hok
    by_cases hlt : Key.version w k + 1 < Key.versionMax w
    · rw [bump_version_ok_eq hw hk hlt] at hok
      have hik : Key.index w k < 2 ^ (w - versionLen w) := by
        rw [index_eq_mod hw]
        exact Nat.mod_lt _ (Nat.pos_pow_of_pos _ (by omega))
      cases hok
      exact index_mul_add hw hik
    · rw [bump_version_err hw hk hlt] at hok
      exact Except.noConfusion hok

/-! ## Entities: the handle allocator (`src/entity/mod.rs`) -/

/-- List helper: reading back the slot just written. -/
theorem getD_set_self {α : Type} (l : List α) (i : Nat) (a d : α) (h : i < l.length) :
    (l.set i a).getD i d = a := by
  induction l generalizing i with
  | nil => simp at h
  | cons x xs ih =>
    cases i with
    | zero => simp
    | succ n =>
      simp only [List.set_cons_succ, List.getD_cons_succ]
      exact ih n (by simpa using h)

/-- List helper: writing one slot leaves the others unchanged. -/
theorem getD_set_ne {α : Type} (l : List α) (i j : Nat) (a d : α) (h : i ≠ j) :
    (l.set i a).getD j d = l.getD j d := by
  induction l generalizing i j with
  | nil => simp
  | cons x xs ih =>
    cases i with
    | zero =>
      cases j with
      | zero => exact absurd rfl h
      | succ m => simp
    | succ n =>
      cases j with
      | zero => simp
      | succ m =>
        simp only [List.set_cons_succ, List.getD_cons_succ]
        exact ih n m (by omega)

/-- C3: Free-list FIFO reuse, on the worked example from the spec and the
repository's own test: two fresh handles are (0,0) and (1,0); after deleting
index 0, `generate` returns (0,1); after deleting index 1 and then index 0,
two further `generate` calls return (1,1) and then (0,2), in that order. -/
theorem claim_C3_free_list_fifo :
    (Key.index 64 fifoR1.1 = 0 ∧ Key.version 64 fifoR1.1 = 0) ∧
    (Key.index 64 fifoR2.1 = 1 ∧ Key.version 64 fifoR2.1 = 0) ∧
    fifoD1.1 = true ∧
    (Key.index 64 fifoR3.1 = 0 ∧ Key.version 64 fifoR3.1 = 1) ∧
    fifoD2.1 = true ∧ fifoD3.1 = true ∧
    (Key.index 64 fifoR4.1 = 1 ∧ Key.version 64 fifoR4.1 = 1) ∧
    (Key.index 64 fifoR5.1 = 0 ∧ Key.version 64 fifoR5.1 = 2) := by
  decide

/-- List helper: an in-bounds `getD` is a member of the list. -/
theorem getD_mem {α : Type} {l : List α} {i : Nat} (d : α) (h : i < l.length) :
    l.getD i d ∈ l := by
  induction l generalizing i with
  | nil => simp at h
  | cons x xs ih =>
    cases i with
    | zero => simp
    | succ n =>
      simp only [List.getD_cons_succ]
      exact List.mem_cons_of_mem _ (ih (by simpa using h))

/-- C5: `delete` returns `true` iff the handle was live. For every allocator
state holding machine words and every handle: `delete_key` returns `true`
exactly when the handle's generation equals the generation stored at its
index; a failed delete changes nothing; and deleting a live, non-saturated
handle twice returns `true` then `false`. -/
theorem claim_C5_delete_iff_live (w : Nat) (e : Entities) (k : Key) (hw : 16 ≤ w)
    (hdata : ∀ x ∈ e.data, x < 2 ^ w) :
    ((Entities.delete_key w e k).1 = true ↔
      Key.index w k < e.data.length ∧
        Key.version w (e.data.getD (Key.index w k) 0) = Key.version w k) ∧
    ((Entities.delete_key w e k).1 = false → (Entities.delete_key w e k).2 = e) ∧
    (Key.index w k < e.data.length →
      Key.version w (e.data.getD (Key.index w k) 0) = Key.version w k →
      Key.version w k + 1 < Key.versionMax w →
      (Entities.delete_key w e k).1 = true ∧
        (Entities.delete_key w (Entities.delete_key w e k).2 k).1 = false) := by
  refine ⟨?_, ?_, ?_⟩
  · unfold Entities.delete_key
    by_cases hcond : Key.index w k < e.data.length ∧
        Key.version w (e.data.getD (Key.index w k) 0) = Key.version w k
    · rw [if_pos hcond]
      cases hb : Key.bump_version w (e.data.getD (Key.index w k) 0) with
      | error u => simpa using hcond
      | ok k' =>
        cases e.list with
        | none => simpa using hcond
        | some ht => cases ht with
          | mk head tail => simpa using hcond
    · rw [if_neg hcond]
      simpa using hcond
  · unfold Entities.delete_key
    by_cases hcond : Key.index w k < e.data.length ∧
        Key.version w (e.data.getD (Key.index w k) 0) = Key.version w k
    · rw [if_pos hcond]
      cases hb : Key.bump_version w (e.data.getD (Key.index w k) 0) with
      | error u => intro hfalse; simp at hfalse
      | ok k' =>
        cases e.list with
        | none => intro hfalse; simp at hfalse
        | some ht => cases ht with
          | mk head tail => intro hfalse; simp at hfalse
    · rw [if_neg hcond]
      intro _; rfl
  · intro hlen hver hroom
    have hcond : Key.index w k < e.data.length ∧
        Key.version w (e.data.getD (Key.index w k) 0) = Key.version w k := ⟨hlen, hver⟩
    have hst : e.data.getD (Key.index w k) 0 < 2 ^ w := hdata _ (getD_mem 0 hlen)
    have hb : Key.bump_version w (e.data.getD (Key.index w k) 0) =
        .ok ((Key.version w (e.data.getD (Key.index w k) 0) + 1) *
          2 ^ (w - versionLen w) + Key.index w (e.data.getD (Key.index w k) 0)) :=
      bump_version_ok_eq hw hst (by rw [hver]; exact hroom)
    obtain ⟨hver', _, hk'⟩ := bump_version_ok_inv hw hst hb
    set k' := (Key.version w (e.data.getD (Key.index w k) 0) + 1) *
      2 ^ (w - versionLen w) + Key.index w (e.data.getD (Key.index w k) 0) with hk'def
    -- the version stored at the handle's slot after the first delete
    have hverk' : Key.version w k' = Key.version w k + 1 := by rw [hver', hver]
    have hsecond : ∀ e₂ : Entities,
        e₂.data.length = e.data.length →
        Key.version w (e₂.data.getD (Key.index w k) 0) = Key.version w k + 1 →
        (Entities.delete_key w e₂ k).1 = false := by
      intro e₂ hlen₂ hver₂
      unfold Entities.delete_key
      rw [if_neg]
      intro ⟨_, hcontra⟩
      rw [hver₂] at hcontra
      omega
    unfold Entities.delete_key
    rw [if_pos hcond, hb]
    cases hl : e.list with
    | none =>
      refine ⟨rfl, hsecond _ (by simp) ?_⟩
      rw [getD_set_self _ _ _ _ (by simpa using hlen)]
      exact hverk'
    | some ht =>
      cases ht with
      | mk head tail =>
        refine ⟨rfl, hsecond _ (by simp) ?_⟩
        by_cases htail : tail = Key.index w k
        · subst htail
          rw [getD_set_self _ _ _ _ (by simpa using hlen)]
          rw [getD_set_self _ _ _ _ (by simpa using hlen)]
          rw [version_set_index hw hk' (index_lt hw k)]
          exact hverk'
        · rw [getD_set_ne _ _ _ _ _ htail]
          rw [getD_set_self _ _ _ _ (by simpa using hlen)]
          exact hverk'

theorem claim_C5_delete_iff_live_witness :
    ((Entities.delete_key 64 { data := [packKey 64 0 0], list := none } 0).1 = true ↔
      Key.index 64 0 < [packKey 64 0 0].length ∧
        Key.version 64 ([packKey 64 0 0].getD (Key.index 64 0) 0) = Key.version 64 0) ∧
    ((Entities.delete_key 64 { data := [packKey 64 0 0], list := none } 0).1 = false →
      (Entities.delete_key 64 { data := [packKey 64 0 0], list := none } 0).2 =
        { data := [packKey 64 0 0], list := none }) ∧
    (Key.index 64 0 < [packKey 64 0 0].length →
      Key.version 64 ([packKey 64 0 0].getD (Key.index 64 0) 0) = Key.version 64 0 →
      Key.version 64 0 + 1 < Key.versionMax 64 →
      (Entities.delete_key 64 { data := [packKey 64 0 0], list := none } 0).1 = true ∧
        (Entities.delete_key 64
          (Entities.delete_key 64 { data := [packKey 64 0 0], list := none } 0).2 0).1 =
          false) :=
  claim_C5_delete_iff_live 64 { data := [packKey 64 0 0], list := none } 0
    (by decide) (by decide)

theorem claim_C9_key_frame_local_witness :
    Key.index 64 (Key.set_index 64 (packKey 64 3 701) 554) = 554 ∧
    Key.version 64 (Key.set_index 64 (packKey 64 3 701) 554) =
      Key.version 64 (packKey 64 3 701) ∧
    (∀ k', Key.bump_version 64 (packKey 64 3 701) = .ok k' →
      Key.index 64 k' = Key.index 64 (packKey 64 3 701)) :=
  claim_C9_key_frame_local 64 (packKey 64 3 701) 554 (by decide) (by decide) (by decide)

/-- C7: `fast_get` and `get` agree on success and failure for all three view
borrows; for the shared borrows they are the same function, and for the
exclusive borrow they succeed together (with the same component value) and
fail together with the same `MissingComponent`, which names the queried
entity and the component type. -/
theorem claim_C7_get_fast_get_agree {α : Type} [Inhabited α] (v : SparseSet α)
    (e : EntityId) :
    View.get v e = View.fast_get v e ∧
    ViewMut.get_ref v e = ViewMut.fast_get_ref v e ∧
    (∀ err, ViewMut.get_mut v e = .error err ↔ ViewMut.fast_get_mut v e = .error err) ∧
    (∀ m, ViewMut.get_mut v e = .ok m → ViewMut.fast_get_mut v e = .ok m.data) ∧
    (∀ err, ViewMut.get_mut v e = .error err →
      err = { id := e, name := v.name : MissingComponent }) := by
  refine ⟨rfl, rfl, ?_, ?_, ?_⟩
  · unfold ViewMut.get_mut ViewMut.fast_get_mut SparseSet.private_get_mut
    cases hp : v.index_of e with
    | none => intro err; simp
    | some p =>
      intro err
      by_cases ht : v.is_tracking_modification <;> simp [ht]
  · unfold ViewMut.get_mut ViewMut.fast_get_mut SparseSet.private_get_mut
    cases hp : v.index_of e with
    | none => intro m hm; simp at hm
    | some p =>
      intro m hm
      by_cases ht : v.is_tracking_modification <;> simp [ht] at hm <;> simp [← hm]
  · unfold ViewMut.get_mut
    cases hp : v.index_of e with
    | none =>
      intro err herr
      simp at herr
      simp [herr]
    | some p =>
      intro err herr
      by_cases ht : v.is_tracking_modification <;> simp [ht] at herr

/-! ### Tuple composition lemmas -/

theorem tupleGet_ok_iff {β : Type} (fs : List (EntityId → Except MissingComponent β))
    (e : EntityId) :
    (∃ outs, tupleGet fs e = .ok outs) ↔ ∀ f ∈ fs, ∃ x, f e = .ok x := by
  induction fs with
  | nil => simp [tupleGet]
  | cons f rest ih =>
    simp only [tupleGet]
    cases hf : f e with
    | error err => simp [hf]
    | ok x =>
      cases hr : tupleGet rest e with
      | error err => simp [hf, hr, ← ih]
      | ok xs => simp [hf, hr, ← ih]

theorem tupleGet_ok_elem {β : Type} (fs : List (EntityId → Except MissingComponent β))
    (e : EntityId) :
    ∀ outs, tupleGet fs e = .ok outs →
      outs.length = fs.length ∧
      ∀ (i : Nat) (h1 : i < fs.length) (h2 : i < outs.length),
        (fs.get ⟨i, h1⟩) e = .ok (outs.get ⟨i, h2⟩) := by
  induction fs with
  | nil =>
    intro outs h
    simp only [tupleGet] at h
    cases h
    simp
  | cons f rest ih =>
    intro outs h
    simp only [tupleGet] at h
    cases hf : f e with
    | error err => rw [hf] at h; exact Except.noConfusion h
    | ok x =>
      rw [hf] at h
      cases hr : tupleGet rest e with
      | error err => rw [hr] at h; exact Except.noConfusion h
      | ok xs =>
        rw [hr] at h
        cases h
        obtain ⟨hlen, helem⟩ := ih xs hr
        refine ⟨by simp [hlen], ?_⟩
        intro i h1 h2
        cases i with
        | zero => simpa using hf
        | succ n =>
          simp only [List.get_cons_succ]
          exact helem n (by simpa using h1) (by simpa using h2)

theorem tupleGet_short_circuit {β : Type}
    (pre post : List (EntityId → Except MissingComponent β))
    (f : EntityId → Except MissingComponent β) (e : EntityId) (err : MissingComponent)
    (hpre : ∀ g ∈ pre, ∃ x, g e = .ok x) (hf : f e = .error err) :
    tupleGet (pre ++ f :: post) e = .error err := by
  induction pre with
  | nil => simp [tupleGet, hf]
  | cons g rest ih =>
    obtain ⟨x, hx⟩ := hpre g (by simp)
    have hrest := ih (fun g' hg' => hpre g' (by simp [hg']))
    simp only [List.cons_append, tupleGet, hx, List.append_eq, hrest]

theorem tupleFastGet_eq_tupleGet {β : Type}
    (fs : List (EntityId → Except MissingComponent β)) (e : EntityId) :
    tupleFastGet fs e = tupleGet fs e := by
  induction fs with
  | nil => rfl
  | cons f rest ih => simp only [tupleFastGet, tupleGet, ih]

/-- C2: Tuple `get` short-circuits left-to-right. A tuple of element getters
(every arity is an instance of the list) succeeds iff every element
succeeds, returning each element's output in place; if any element fails,
the result is the error of the leftmost failing element; `fast_get` composes
identically; and for a tuple of views the propagated error is the
`MissingComponent` naming the queried entity and the leftmost failing view's
component type. -/
theorem claim_C2_tuple_get_short_circuit {β : Type} [Inhabited β] :
    (∀ (fs : List (EntityId → Except MissingComponent β)) (e : EntityId),
      ((∃ outs, tupleGet fs e = .ok outs) ↔ ∀ f ∈ fs, ∃ x, f e = .ok x)) ∧
    (∀ (fs : List (EntityId → Except MissingComponent β)) (e : EntityId) outs,
      tupleGet fs e = .ok outs →
        outs.length = fs.length ∧
        ∀ (i : Nat) (h1 : i < fs.length) (h2 : i < outs.length),
          (fs.get ⟨i, h1⟩) e = .ok (outs.get ⟨i, h2⟩)) ∧
    (∀ (pre post : List (EntityId → Except MissingComponent β)) f e err,
      (∀ g ∈ pre, ∃ x, g e = .ok x) → f e = .error err →
        tupleGet (pre ++ f :: post) e = .error err) ∧
    (∀ (fs : List (EntityId → Except MissingComponent β)) (e : EntityId),
      tupleFastGet fs e = tupleGet fs e) ∧
    (∀ (vsPre vsPost : List (SparseSet β)) (v : SparseSet β) (e : EntityId),
      (∀ u ∈ vsPre, ∃ x, u.private_get e = some x) → v.private_get e = none →
        tupleGet ((vsPre ++ v :: vsPost).map (fun u => View.get u)) e =
          .error { id := e, name := v.name }) := by
  refine ⟨tupleGet_ok_iff, tupleGet_ok_elem, tupleGet_short_circuit, tupleFastGet_eq_tupleGet, ?_⟩
  intro vsPre vsPost v e hpre hv
  rw [List.map_append, List.map_cons]
  apply tupleGet_short_circuit
  · intro g hg
    rw [List.mem_map] at hg
    obtain ⟨u, hu, rfl⟩ := hg
    obtain ⟨x, hx⟩ := hpre u hu
    exact ⟨x, by simp [View.get, hx]⟩
  · simp [View.get, hv]

/-! ### Change-tracking lemmas -/

/-- Inverting a successful `index_of` lookup. -/
theorem index_of_some {α : Type} {s : SparseSet α} {e : EntityId} {p : Nat}
    (h : s.index_of e = some p) :
    s.sparse.getD e.index none = some p ∧ p < s.dense.length ∧
      (s.dense.getD p default).id = e := by
  unfold SparseSet.index_of at h
  split at h
  · exact Option.noConfusion h
  · rename_i q hq
    split at h
    · rename_i hc
      cases h
      exact ⟨hq, hc⟩
    · exact Option.noConfusion h

/-- List helper: rewriting a slot with its own value is the identity. -/
theorem set_getD_self {α : Type} (l : List α) (i : Nat) (d : α) (h : i < l.length) :
    l.set i (l.getD i d) = l := by
  induction l generalizing i with
  | nil => simp at h
  | cons x xs ih =>
    cases i with
    | zero => simp
    | succ n =>
      simp only [List.getD_cons_succ, List.set_cons_succ]
      rw [ih n (by simpa using h)]

/-- Introduction rule for `index_of`. -/
theorem index_of_eq_some {α : Type} (s : SparseSet α) (e : EntityId) (p : Nat)
    (hsp : s.sparse.getD e.index none = some p) (hlt : p < s.dense.length)
    (hid : (s.dense.getD p default).id = e) :
    s.index_of e = some p := by
  unfold SparseSet.index_of
  split
  · next heq => rw [hsp] at heq; exact Option.noConfusion heq
  · next q heq =>
    rw [hsp] at heq
    injection heq with h
    subst h
    rw [if_pos ⟨hlt, hid⟩]

/-- `get_mut` on a present entity, tracking on, entry not inserted: the
wrapper carries the flag marker. -/
theorem get_mut_flag_some {α : Type} [Inhabited α] {s : ViewMut α} {e : EntityId}
    {p : Nat} (hp : s.index_of e = some p) (ht : s.is_tracking_modification = true)
    (hins : (s.dense.getD p default).is_inserted = false) :
    s.get_mut e = .ok { flag := some p, data := s.data.getD p default } := by
  unfold ViewMut.get_mut
  split
  · next heq => rw [hp] at heq; exact Option.noConfusion heq
  · next q heq =>
    rw [hp] at heq
    injection heq with h
    subst h
    rw [if_pos ht, if_pos (by rw [hins]; exact Bool.false_ne_true)]

/-- `get_mut` on a present entity, with tracking off or the entry already
inserted: the wrapper carries no flag marker. -/
theorem get_mut_flag_none {α : Type} [Inhabited α] {s : ViewMut α} {e : EntityId}
    {p : Nat} (hp : s.index_of e = some p)
    (h : s.is_tracking_modification = false ∨
      (s.dense.getD p default).is_inserted = true) :
    s.get_mut e = .ok { flag := none, data := s.data.getD p default } := by
  unfold ViewMut.get_mut
  split
  · next heq => rw [hp] at heq; exact Option.noConfusion heq
  · next q heq =>
    rw [hp] at heq
    injection heq with h2
    subst h2
    rcases h with ht | hins
    · rw [if_neg (by rw [ht]; exact Bool.false_ne_true)]
    · by_cases ht : s.is_tracking_modification
      · rw [if_pos ht, if_neg (by rw [hins]; exact not_not_intro rfl)]
      · rw [if_neg ht]

/-- `get_mut` on an absent entity fails with `MissingComponent`. -/
theorem get_mut_none {α : Type} [Inhabited α] {s : ViewMut α} {e : EntityId}
    (hp : s.index_of e = none) :
    s.get_mut e = .error { id := e, name := s.name } := by
  unfold ViewMut.get_mut
  split
  · rfl
  · next q heq => rw [hp] at heq; exact Option.noConfusion heq

/-- A tracked access applies the returned wrapper's flag. -/
theorem trackedAccess_eq {α : Type} [Inhabited α] {s : ViewMut α} {e : EntityId}
    {m : Mut α} (h : s.get_mut e = .ok m) :
    trackedAccess s e = applyMutFlag s m.flag := by
  unfold trackedAccess
  split
  · next heq => rw [h] at heq; exact Except.noConfusion heq
  · next m' heq =>
    rw [h] at heq
    injection heq with h2
    subst h2
    rfl

/-- Re-marking an already `modified` entry is the identity. -/
theorem modified_update_id (d : DenseEntry) (hd : d.modified = true) :
    ({ d with modified := true } : DenseEntry) = d := by
  cases d
  simp_all

/-- C6: Change flags are set only through the tracked `get` path. For a
tracking view and a present, not-inserted slot: one tracked mutable access
marks the slot modified; a second tracked access in the same epoch leaves the
state exactly as after the first (no second flagging); and writing through
`fast_get` never changes any dense entry, hence no modified flag, on any
view. -/
theorem claim_C6_change_flag_idempotent {α : Type} [Inhabited α] (s : ViewMut α)
    (e : EntityId) (p : Nat)
    (htrack : s.is_tracking_modification = true)
    (hp : s.index_of e = some p)
    (hins : (s.dense.getD p default).is_inserted = false) :
    ((trackedAccess s e).dense.getD p default).modified = true ∧
    trackedAccess (trackedAccess s e) e = trackedAccess s e ∧
    (∀ (s' : ViewMut α) (e' : EntityId) (v : α), (fastWrite s' e' v).dense = s'.dense) := by
  obtain ⟨hsp, hplen, hpid⟩ := index_of_some hp
  have hget : s.get_mut e = .ok { flag := some p, data := s.data.getD p default } :=
    get_mut_flag_some hp htrack hins
  have hs1 : trackedAccess s e =
      { s with dense := s.dense.set p { s.dense.getD p default with modified := true } } := by
    rw [trackedAccess_eq hget]
    rfl
  set s1 : ViewMut α :=
    { s with dense := s.dense.set p { s.dense.getD p default with modified := true } }
    with hs1def
  have hlen1 : s1.dense.length = s.dense.length := by
    rw [hs1def]
    simp
  have hentry1 : s1.dense.getD p default =
      { s.dense.getD p default with modified := true } := by
    rw [hs1def]
    exact getD_set_self _ _ _ _ hplen
  have hidx1 : s1.index_of e = some p := by
    refine index_of_eq_some s1 e p hsp (by omega) ?_
    rw [hentry1]
    exact hpid
  have hins1 : (s1.dense.getD p default).is_inserted = false := by
    rw [hentry1]
    exact hins
  have hget1 : s1.get_mut e = .ok { flag := some p, data := s1.data.getD p default } :=
    get_mut_flag_some hidx1 htrack hins1
  refine ⟨?_, ?_, ?_⟩
  · rw [hs1, hentry1]
  · rw [hs1]
    have hmod1 : (s1.dense.getD p default).modified = true := by
      rw [hentry1]
    have hsame : s1.dense.set p { s1.dense.getD p default with modified := true } =
        s1.dense := by
      rw [modified_update_id _ hmod1]
      exact set_getD_self _ _ _ (by omega)
    have happ : applyMutFlag s1 (some p) = { s1 with dense := s1.dense.set p { s1.dense.getD p default with modified := true } } := rfl
    calc trackedAccess s1 e
        = applyMutFlag s1 (some p) := by
          rw [trackedAccess_eq hget1]
      _ = s1 := by rw [happ, hsame]
  · intro s' e' v
    unfold fastWrite
    cases s'.index_of e' <;> rfl

theorem claim_C6_change_flag_idempotent_witness :
    (let s : ViewMut Nat :=
      { sparse := [some 0], dense := [⟨⟨0, 0⟩, false, false⟩], data := [42],
        track_modification := true, name := "usize" }
     ((trackedAccess s ⟨0, 0⟩).dense.getD 0 default).modified = true ∧
     trackedAccess (trackedAccess s ⟨0, 0⟩) ⟨0, 0⟩ = trackedAccess s ⟨0, 0⟩ ∧
     (∀ (s' : ViewMut Nat) (e' : EntityId) (v : Nat),
        (fastWrite s' e' v).dense = s'.dense)) :=
  claim_C6_change_flag_idempotent
    { sparse := [some 0], dense := [⟨⟨0, 0⟩, false, false⟩], data := [42],
      track_modification := true, name := "usize" }
    ⟨0, 0⟩ 0 (by rfl) (by rfl) (by rfl)

/-- C10: The tracked wrapper carries a flag marker iff the storage tracks
modification and the entity's dense entry is not marked inserted; with
tracking off the flag is always `None`; and a tracked access to an inserted
slot leaves the storage unchanged (never flags it modified). -/
theorem claim_C10_no_flag_when_inserted {α : Type} [Inhabited α] (s : ViewMut α)
    (e : EntityId) :
    (∀ m, s.get_mut e = .ok m →
      (m.flag ≠ none ↔ s.is_tracking_modification = true ∧
        ∃ p, s.index_of e = some p ∧ (s.dense.getD p default).is_inserted = false)) ∧
    (s.is_tracking_modification = false → ∀ m, s.get_mut e = .ok m → m.flag = none) ∧
    (∀ p, s.index_of e = some p → (s.dense.getD p default).is_inserted = true →
      trackedAccess s e = s) := by
  refine ⟨?_, ?_, ?_⟩
  · intro m hm
    cases hp : s.index_of e with
    | none =>
      rw [get_mut_none hp] at hm
      exact Except.noConfusion hm
    | some p =>
      by_cases ht : s.is_tracking_modification
      · by_cases hins : (s.dense.getD p default).is_inserted
        · rw [get_mut_flag_none hp (Or.inr hins)] at hm
          injection hm with h
          subst h
          constructor
          · intro hne; exact absurd rfl hne
          · rintro ⟨-, p', hp', hins'⟩
            injection hp' with h2
            subst h2
            rw [hins] at hins'
            exact Bool.noConfusion hins'
        · have hinsf : (s.dense.getD p default).is_inserted = false :=
            Bool.eq_false_iff.mpr hins
          rw [get_mut_flag_some hp ht hinsf] at hm
          injection hm with h
          subst h
          constructor
          · intro _
            exact ⟨ht, p, rfl, hinsf⟩
          · intro _
            exact Option.noConfusion
      · have htf : s.is_tracking_modification = false := Bool.eq_false_iff.mpr ht
        rw [get_mut_flag_none hp (Or.inl htf)] at hm
        injection hm with h
        subst h
        constructor
        · intro hne; exact absurd rfl hne
        · rintro ⟨ht', -⟩
          exact absurd ht' ht
  · intro ht m hm
    cases hp : s.index_of e with
    | none =>
      rw [get_mut_none hp] at hm
      exact Except.noConfusion hm
    | some p =>
      rw [get_mut_flag_none hp (Or.inl ht)] at hm
      injection hm with h
      subst h
      rfl
  · intro p hp hins
    have hgm : s.get_mut e = .ok { flag := none, data := s.data.getD p default } := by
      by_cases ht : s.is_tracking_modification
      · exact get_mut_flag_none hp (Or.inr hins)
      · exact get_mut_flag_none hp (Or.inl (Bool.eq_false_iff.mpr ht))
    rw [trackedAccess_eq hgm]
    rfl

/-- C8 counterexample: the 32-bit truncation `hasher.finish() as u32`
identifies the distinct native type identities `0` and `2^32`, so equality
of type identifiers does not coincide with type identity over the whole
identity space. -/
theorem claim_C8_counterexample :
    TypeId.of 0 = TypeId.of (2 ^ 32) ∧ (0 : Nat) ≠ 2 ^ 32 := by
  refine ⟨?_, by decide⟩
  show 0 % 2 ^ 32 = 2 ^ 32 % 2 ^ 32
  simp

/-- C8 (amended): type-identifier equality coincides with type identity for
types whose native identities are below the 32-bit truncation bound, and the
derived ordering and hashing are consistent with identifier equality
(unconditionally). -/
theorem claim_C8_typeid_consistency (t u : Nat) (ht : t < 2 ^ 32) (hu : u < 2 ^ 32) :
    (TypeId.of t = TypeId.of u ↔ t = u) ∧
    (TypeId.cmp (TypeId.of t) (TypeId.of u) = .eq ↔ TypeId.of t = TypeId.of u) ∧
    (TypeId.of t = TypeId.of u → TypeId.hashOf (TypeId.of t) = TypeId.hashOf (TypeId.of u)) := by
  have hot : TypeId.of t = t := Nat.mod_eq_of_lt ht
  have hou : TypeId.of u = u := Nat.mod_eq_of_lt hu
  refine ⟨?_, ?_, ?_⟩
  · rw [hot, hou]
  · exact compare_eq_iff_eq
  · intro h
    rw [h]

theorem claim_C8_typeid_consistency_witness :
    (TypeId.of 5 = TypeId.of 7 ↔ 5 = 7) ∧
    (TypeId.cmp (TypeId.of 5) (TypeId.of 7) = .eq ↔ TypeId.of 5 = TypeId.of 7) ∧
    (TypeId.of 5 = TypeId.of 7 → TypeId.hashOf (TypeId.of 5) = TypeId.hashOf (TypeId.of 7)) :=
  claim_C8_typeid_consistency 5 7 (by decide) (by decide)

end Shipyard

